import Mathlib

/-!
Verification of `solve_12.py` (Advent of Code 2019, day 12): a shallow
embedding of the moon-simulation program and proofs of its specified
properties.  Python's mutable objects are modelled by pure state passing:
`Vector3`, `Moon` and `System` become structures, the in-place updates
become functions returning the new value, and the unbounded `while True`
loop of Part 2 is modelled with explicit fuel.
-/

namespace Solve12

/-- Embeds class `Vector3`: three signed integer components. -/
structure Vector3 where
  x : Int
  y : Int
  z : Int
deriving DecidableEq, Repr

/-- Embeds `Vector3.__add__`: componentwise sum. -/
def Vector3.add (a b : Vector3) : Vector3 :=
  ⟨a.x + b.x, a.y + b.y, a.z + b.z⟩

/-- Embeds `Vector3.__sub__`: componentwise difference. -/
def Vector3.sub (a b : Vector3) : Vector3 :=
  ⟨a.x - b.x, a.y - b.y, a.z - b.z⟩

/-- Embeds the per-component map of `Vector3.sign`:
`-1 if t < 0 else 0 if t == 0 else 1`. -/
def sgn (t : Int) : Int :=
  if t < 0 then -1 else if t = 0 then 0 else 1

/-- Embeds `Vector3.sign`: the componentwise sign vector. -/
def Vector3.sign (v : Vector3) : Vector3 :=
  ⟨sgn v.x, sgn v.y, sgn v.z⟩

/-- Embeds class `Moon`: a position and a velocity. -/
structure Moon where
  position : Vector3
  velocity : Vector3
deriving DecidableEq, Repr

/-- Embeds `Moon.__init__` applied to a position only: the default
velocity is `Vector3(0, 0, 0)`. -/
def Moon.ofPosition (p : Vector3) : Moon :=
  ⟨p, ⟨0, 0, 0⟩⟩

/-- Embeds `Moon.move`: `position += velocity`. -/
def Moon.move (m : Moon) : Moon :=
  { m with position := m.position.add m.velocity }

/-- Embeds `Moon.potential_energy`: `sum(map(abs, self.position))`, the sum
of the absolute values of the three position components. -/
def Moon.potential_energy (m : Moon) : Int :=
  ([m.position.x, m.position.y, m.position.z].map (fun t => |t|)).sum

/-- Embeds `Moon.kinetic_energy`: `sum(map(abs, self.velocity))`. -/
def Moon.kinetic_energy (m : Moon) : Int :=
  ([m.velocity.x, m.velocity.y, m.velocity.z].map (fun t => |t|)).sum

/-- Embeds `Moon.total_energy`: potential times kinetic energy. -/
def Moon.total_energy (m : Moon) : Int :=
  m.potential_energy * m.kinetic_energy

/-- Embeds class `System`: the ordered list of moons and the step counter
(`self.step = 0` at construction).  The `debug` flag only controls
printing and is not modelled. -/
structure System where
  moons : List Moon
  step : Nat
deriving DecidableEq, Repr

/-- The index pairs `itertools.combinations(self.moons, 2)` walks through:
every `(i, j)` with `i < j < n`, in lexicographic order. -/
def combPairs (n : Nat) : List (Nat × Nat) :=
  (List.range n).flatMap fun i =>
    (List.range n).filterMap fun j => if i < j then some (i, j) else none

/-- One iteration of the loop body of `System.apply_gravity` on the pair of
moons at positions `i` and `j` of the list: `diff = m1.position - m2.position`,
`m1.velocity -= diff.sign()`, `m2.velocity += diff.sign()`.  Python mutates
the two `Moon` objects; here the list is rebuilt with `List.set`. -/
def gravPair (ms : List Moon) (i j : Nat) : List Moon :=
  match ms[i]?, ms[j]? with
  | some m1, some m2 =>
    let s := (m1.position.sub m2.position).sign
    (ms.set i { m1 with velocity := m1.velocity.sub s }).set j
      { m2 with velocity := m2.velocity.add s }
  | _, _ => ms

/-- Embeds `System.apply_gravity`: fold the pairwise update over every
combination of two distinct moons. -/
def System.apply_gravity (s : System) : System :=
  { s with
    moons := (combPairs s.moons.length).foldl (fun l p => gravPair l p.1 p.2) s.moons }

/-- Embeds `System.tick`: `self.step += 1`, then every moon moves. -/
def System.tick (s : System) : System :=
  { moons := s.moons.map Moon.move, step := s.step + 1 }

/-- Embeds `System.energy`: the sum of the moons' total energies. -/
def System.energy (s : System) : Int :=
  (s.moons.map Moon.total_energy).sum

/-- The x component of `System.state`: in moon order, the pair
`(m.position.x, m.velocity.x)`. -/
def System.stateX (s : System) : List (Int × Int) :=
  s.moons.map fun m => (m.position.x, m.velocity.x)

/-- The y component of `System.state`. -/
def System.stateY (s : System) : List (Int × Int) :=
  s.moons.map fun m => (m.position.y, m.velocity.y)

/-- The z component of `System.state`. -/
def System.stateZ (s : System) : List (Int × Int) :=
  s.moons.map fun m => (m.position.z, m.velocity.z)

/-- Embeds `System.state`: the triple of per-axis snapshots. -/
def System.state (s : System) : List (Int × Int) × List (Int × Int) × List (Int × Int) :=
  (s.stateX, s.stateY, s.stateZ)

/-- One simulation advance as both drivers perform it:
`jupiter.apply_gravity()` followed by `jupiter.tick()`. -/
def advance (s : System) : System :=
  s.apply_gravity.tick

/-- The moon list the drivers build from the parsed vectors:
`moons = list(map(Moon, moons))` (zero initial velocities). -/
def initialMoons (ps : List Vector3) : List Moon :=
  ps.map Moon.ofPosition

/-- The system after Part 1's loop `for _ in range(1000)`: one thousand
advances from `System(moons)`. -/
def part1System (ps : List Vector3) : System :=
  advance^[1000] { moons := initialMoons ps, step := 0 }

/-- Embeds `part1 = jupiter.energy()` after the 1000 advances. -/
def part1 (ps : List Vector3) : Int :=
  (part1System ps).energy

/-- Embeds line 131, `jupiter = System(moons)  # reset system`: the SAME
(Part-1-mutated) moon list is wrapped in a new `System`, so only the step
counter is reset.  In the pure embedding the mutated list is
`(part1System ps).moons`. -/
def part2StartSystem (ps : List Vector3) : System :=
  { moons := (part1System ps).moons, step := 0 }

/-! ### The Part 2 period-detection loop

Python keeps `history = {"x": set(), "y": set(), "z": set()}` and
`period = [None, None, None]`, then loops: read `state = jupiter.state()`;
for each axis whose period is still `None`, either record the period (when
`state[i]` was already seen) or insert `state[i]` into the axis's set;
break when `all(period)` is truthy; otherwise advance the system.  Sets of
tuples become lists with decidable membership (only membership is ever
used), and the `del history[axis]` after a period is found is a memory
optimisation with no observable effect (the entry is never read again), so
the history is simply left unchanged there. -/

/-- The loop's mutable state: the system, one seen-set per axis and one
period slot per axis. -/
structure LoopState where
  sys : System
  histX : List (List (Int × Int))
  histY : List (List (Int × Int))
  histZ : List (List (Int × Int))
  perX : Option Nat
  perY : Option Nat
  perZ : Option Nat
deriving DecidableEq, Repr

/-- The body of `for i, axis in enumerate("xyz")` for one axis: when the
period is unknown, either set it to the current step (`state[i]` already
seen) or insert `state[i]` into the seen-set. -/
def axisCheck (step : Nat) (axSt : List (Int × Int))
    (hist : List (List (Int × Int))) :
    Option Nat → List (List (Int × Int)) × Option Nat
  | some p => (hist, some p)
  | none => if axSt ∈ hist then (hist, some step) else (axSt :: hist, none)

/-- One pass of the `for` loop over the three axes.  Python mutates
`history` and `period` axis by axis; the axes touch disjoint entries, so
the three updates are independent. -/
def checkPhase (st : LoopState) : LoopState :=
  let stt := st.sys.state
  let rx := axisCheck st.sys.step stt.1 st.histX st.perX
  let ry := axisCheck st.sys.step stt.2.1 st.histY st.perY
  let rz := axisCheck st.sys.step stt.2.2 st.histZ st.perZ
  { st with
    histX := rx.1, perX := rx.2,
    histY := ry.1, perY := ry.2,
    histZ := rz.1, perZ := rz.2 }

/-- Python truthiness of one `period` entry inside `all(period)`: `None`
and `0` are falsy, every other integer is truthy. -/
def truthy : Option Nat → Bool
  | none => false
  | some p => p != 0

/-- The exit test `all(period)` on the three period slots. -/
def allPeriod (st : LoopState) : Bool :=
  truthy st.perX && truthy st.perY && truthy st.perZ

/-- Embeds the `while True` loop of Part 2, with explicit fuel standing in
for the unbounded iteration: check the three axes, break with the period
triple when `all(period)`, otherwise advance and repeat. -/
def part2Loop : Nat → LoopState → Option (Option Nat × Option Nat × Option Nat)
  | 0, _ => none
  | fuel + 1, st =>
    let st' := checkPhase st
    if allPeriod st' then some (st'.perX, st'.perY, st'.perZ)
    else part2Loop fuel { st' with sys := advance st'.sys }

/-- The loop's starting state: empty seen-sets, unknown periods. -/
def initLoop (s0 : System) : LoopState :=
  { sys := s0
    histX := [], histY := [], histZ := []
    perX := none, perY := none, perZ := none }

/-! ### `lcm`, with Python's float true division

`def lcm(a, b): return int(a * b / gcd(a, b))` uses `/`, Python 3's TRUE
division: the integer quotient `(a*b)/gcd(a,b)` (an exact integer, since
the gcd divides the product) is converted to the nearest IEEE-754 double
(ties to even) before `int` truncates it back.  `float64Round` models that
rounding for naturals; values at or above `2 ^ 53` can change.  The
`ZeroDivisionError` at `a = b = 0` and the `OverflowError` past `2 ^ 1024`
are outside every claim and are not modelled. -/

/-- How many halvings until the value drops below `2 ^ 53` (the fuel
argument only bounds the recursion; `m` halvings always suffice). -/
def scaleDown (m : Nat) : Nat → Nat
  | 0 => 0
  | fuel + 1 => if m < 2 ^ 53 then 0 else scaleDown (m / 2) fuel + 1

/-- Round a natural number to the nearest IEEE-754 double, ties to even:
split `m` as `q * 2 ^ e + r` with `q` in the 53-bit significand range and
round `r` away. -/
def float64Round (m : Nat) : Nat :=
  if m < 2 ^ 53 then m
  else
    let e := scaleDown m m
    let q := m / 2 ^ e
    let r := m % 2 ^ e
    if 2 * r < 2 ^ e then q * 2 ^ e
    else if 2 ^ e < 2 * r then (q + 1) * 2 ^ e
    else (if q % 2 = 0 then q else q + 1) * 2 ^ e

/-- Embeds `lcm(a, b) = int(a * b / gcd(a, b))` with the float rounding of
the true division made explicit. -/
def lcm (a b : Nat) : Nat :=
  float64Round (a * b / Nat.gcd a b)

/-- Embeds `lcms(*numbers) = reduce(lcm, numbers)`: left fold of `lcm`
with the first element as the start (`reduce` of an empty sequence raises;
the empty case is junk and never reached by the driver). -/
def lcms : List Nat → Nat
  | [] => 0
  | h :: t => t.foldl lcm h

/-- Embeds `part2 = lcms(*period)` after the loop breaks: the recorded
periods (integers at that point) are combined by `lcms`. -/
def part2 (fuel : Nat) (ps : List Vector3) : Option Nat :=
  (part2Loop fuel (initLoop (part2StartSystem ps))).map fun r =>
    lcms [r.1.getD 0, r.2.1.getD 0, r.2.2.getD 0]

/-! ### `parse_vec`

Strings are modelled as `List Char`, the Python exceptions (`IndexError`
from `vec[1]` / `vec[2]`, `ValueError` from `int`) as `none`. -/

/-- Embeds `str.split(sep)` for a one-character separator: always at least
one (possibly empty) piece, adjacent separators give empty pieces. -/
def pySplit (sep : Char) : List Char → List (List Char)
  | [] => [[]]
  | c :: rest =>
    match pySplit sep rest with
    | [] => [[]]
    | h :: t => if c = sep then [] :: h :: t else (c :: h) :: t

/-- Embeds `str.replace(lab + "=", "")`: remove every occurrence of the
two-character label, scanning left to right without rescanning output. -/
def removeLabel (lab : Char) : List Char → List Char
  | [] => []
  | [c] => [c]
  | c1 :: c2 :: rest =>
    if c1 = lab ∧ c2 = '=' then removeLabel lab rest
    else c1 :: removeLabel lab (c2 :: rest)

/-- The whitespace `int()` strips from both ends of its argument (ASCII
subset; the file's lines are already `strip()`ed by the driver). -/
def isPyWs (c : Char) : Bool :=
  c = ' ' || c = '\t' || c = '\n' || c = '\r' || c = '\x0b' || c = '\x0c'

/-- The numeric value of an ASCII digit character, `none` otherwise. -/
def digVal (c : Char) : Option Nat :=
  if '0' ≤ c ∧ c ≤ '9' then some (c.toNat - '0'.toNat) else none

/-- The digit run of a Python integer literal after the optional sign:
ASCII digits, with single underscores allowed strictly between digits
(`1_0` is legal, `_1`, `1_` and `1__0` are not).  The accumulator carries
the value read so far; on entry the previous character was a digit. -/
def pyDigitsAux : Nat → List Char → Option Nat
  | acc, [] => some acc
  | acc, c :: rest =>
    if c = '_' then
      match rest with
      | [] => none
      | c2 :: rest2 =>
        match digVal c2 with
        | some d => pyDigitsAux (acc * 10 + d) rest2
        | none => none
    else
      match digVal c with
      | some d => pyDigitsAux (acc * 10 + d) rest
      | none => none

/-- A full digit run: nonempty and not starting with an underscore. -/
def pyDigits : List Char → Option Nat
  | [] => none
  | c :: rest => if c = '_' then none else pyDigitsAux 0 (c :: rest)

/-- Strip Python `int()`'s surrounding whitespace from both ends. -/
def stripWs (s : List Char) : List Char :=
  ((s.dropWhile isPyWs).reverse.dropWhile isPyWs).reverse

/-- Embeds `int(s)` for a base-10 string: strip whitespace, optional
sign, then a digit run; `none` is Python's `ValueError`. -/
def pyInt (s : List Char) : Option Int :=
  match stripWs s with
  | [] => none
  | c :: rest =>
    if c = '-' then (pyDigits rest).map fun n => -(n : Int)
    else if c = '+' then (pyDigits rest).map fun n => (n : Int)
    else (pyDigits (c :: rest)).map fun n => (n : Int)

/-- Embeds `parse_vec`: strip `<`, `>` and spaces (each `replace` of a
one-character pattern is a filter), split on `,`, strip the `x=`/`y=`/`z=`
labels, parse the three integers.  `none` stands for the Python exceptions
(`IndexError` when fewer than three pieces, `ValueError` from `int`). -/
def parse_vec (s : List Char) : Option Vector3 :=
  let t := ((s.filter (· ≠ '<')).filter (· ≠ '>')).filter (· ≠ ' ')
  let vec := pySplit ',' t
  match vec[0]?, vec[1]?, vec[2]? with
  | some v0, some v1, some v2 =>
    match pyInt (removeLabel 'x' v0), pyInt (removeLabel 'y' v1),
        pyInt (removeLabel 'z' v2) with
    | some a, some b, some c => some ⟨a, b, c⟩
    | _, _, _ => none
  | _, _, _ => none

/-- The comma-split pieces `vec` of `parse_vec` (source lines 100-101):
the line after the three character strips, split on `,`. -/
def parsePieces (s : List Char) : List (List Char) :=
  pySplit ',' (((s.filter (· ≠ '<')).filter (· ≠ '>')).filter (· ≠ ' '))

/-! ### The spec's input shape, for comparison with `parse_vec`

The following definitions are NOT from the source: they give the spec's
exact line grammar `<x=I, y=I, z=I>` — `I` an optionally-signed base-10
integer literal — and the integer a literal denotes, so the parser can be
compared against the spec on EVERY line of that shape. -/

/-- A nonempty run of ASCII digits. -/
def digitsOnly (l : List Char) : Bool :=
  !l.isEmpty && l.all fun c => decide ('0' ≤ c ∧ c ≤ '9')

/-- Modelled from the spec: an optionally-signed base-10 integer literal
`I` as the spec's grammar admits it (optional `-` or `+`, then digits;
leading zeros allowed). -/
def intLit : List Char → Bool
  | [] => false
  | c :: rest =>
    if c = '-' ∨ c = '+' then digitsOnly rest else digitsOnly (c :: rest)

/-- The standard base-10 value of a digit run. -/
def digitsVal (ds : List Char) : Nat :=
  ds.foldl (fun a ch => a * 10 + (ch.toNat - '0'.toNat)) 0

/-- Modelled from the spec: the integer an optionally-signed literal
denotes. -/
def litVal (l : List Char) : Int :=
  match l with
  | [] => 0
  | c :: rest =>
    if c = '-' then -(digitsVal rest : Int)
    else if c = '+' then (digitsVal rest : Int)
    else (digitsVal (c :: rest) : Int)

/-- Does a split piece look like `<x=I`? -/
def shapeX (p : List Char) : Bool :=
  match p with
  | c1 :: c2 :: c3 :: a => c1 = '<' && c2 = 'x' && c3 = '=' && intLit a
  | _ => false

/-- Does a split piece look like ` y=I`? -/
def shapeY (p : List Char) : Bool :=
  match p with
  | c1 :: c2 :: c3 :: b => c1 = ' ' && c2 = 'y' && c3 = '=' && intLit b
  | _ => false

/-- Does a split piece look like ` z=I>`? -/
def shapeZ (p : List Char) : Bool :=
  match p with
  | c1 :: c2 :: c3 :: c =>
    c1 = ' ' && c2 = 'z' && c3 = '=' && (c.getLast? == some '>')
      && intLit c.dropLast
  | _ => false

/-- Modelled from the spec: decide whether a line matches the exact
`<x=I, y=I, z=I>` shape (split on the two commas, then check the three
pieces). -/
def matchesShape (s : List Char) : Bool :=
  match pySplit ',' s with
  | [p1, p2, p3] => shapeX p1 && shapeY p2 && shapeZ p3
  | _ => false

/-- Rejoin what `pySplit` separated (inverse of the split, used to
recover the raw line from its pieces). -/
def joinSep (sep : Char) : List (List Char) → List Char
  | [] => []
  | [l] => l
  | l :: ls => l ++ sep :: joinSep sep ls

/-! ## Helper lemmas -/

theorem mem_combPairs (n : Nat) (p : Nat × Nat) :
    p ∈ combPairs n ↔ p.1 < p.2 ∧ p.2 < n := by
  rcases p with ⟨i, j⟩
  simp only [combPairs, List.mem_flatMap, List.mem_filterMap, List.mem_range]
  constructor
  · rintro ⟨a, ha, b, hb, h⟩
    split_ifs at h with hab
    simp_all
  · rintro ⟨hij, hj⟩
    exact ⟨i, lt_trans hij hj, j, hj, by simp [hij]⟩

theorem combPairs_inner_length (n i : Nat) :
    ((List.range n).filterMap fun j =>
      if i < j then some (i, j) else none).length = n - (i + 1) := by
  induction n with
  | zero => simp
  | succ n ih =>
    rw [List.range_succ, List.filterMap_append, List.length_append, ih]
    by_cases h : i < n <;> simp [h] <;> omega

theorem length_combPairs (n : Nat) :
    (combPairs n).length = n * (n - 1) / 2 := by
  have hm : (combPairs n).length
      = ((List.range n).map fun i => n - (i + 1)).sum := by
    rw [combPairs, List.length_flatMap]
    exact congrArg List.sum
      (List.map_congr_left fun i _ => combPairs_inner_length n i)
  have hsw : ((List.range n).map fun i => n - (i + 1))
      = ((List.range n).map fun i => n - 1 - i) :=
    List.map_congr_left fun i _ => by omega
  have hb : ((List.range n).map fun i => n - 1 - i).sum
      = ∑ i in Finset.range n, (n - 1 - i) := rfl
  have hr := Finset.sum_range_reflect (fun i => i) n
  have hg := Finset.sum_range_id_mul_two n
  rw [hm, hsw, hb, hr]
  omega

theorem nodup_combPairs (n : Nat) : (combPairs n).Nodup := by
  rw [combPairs, List.nodup_flatMap]
  constructor
  · intro i _
    refine (List.nodup_range n).filterMap ?_
    intro a b q hqa hqb
    simp only [Option.mem_def] at hqa hqb
    have ha : q.2 = a := by
      split_ifs at hqa
      simp only [Option.some.injEq] at hqa
      subst hqa; rfl
    have hb : q.2 = b := by
      split_ifs at hqb
      simp only [Option.some.injEq] at hqb
      subst hqb; rfl
    omega
  · refine List.Pairwise.imp ?_ (List.pairwise_lt_range n)
    intro a b hab q hqa hqb
    simp only [List.mem_filterMap, List.mem_range] at hqa hqb
    obtain ⟨c, _, hc⟩ := hqa
    obtain ⟨d, _, hd⟩ := hqb
    have h1 : q.1 = a := by
      split_ifs at hc
      simp only [Option.some.injEq] at hc
      subst hc; rfl
    have h2 : q.1 = b := by
      split_ifs at hd
      simp only [Option.some.injEq] at hd
      subst hd; rfl
    omega

theorem gravPair_length (ms : List Moon) (i j : Nat) :
    (gravPair ms i j).length = ms.length := by
  rw [gravPair]
  rcases h1 : ms[i]? with _ | m1 <;> rcases h2 : ms[j]? with _ | m2 <;>
    simp [List.length_set]

theorem sum_map_set {α : Type} (f : α → Int) :
    ∀ (l : List α) (k : Nat) (a : α) (hk : k < l.length),
    ((l.set k a).map f).sum = (l.map f).sum - f (l.get ⟨k, hk⟩) + f a := by
  intro l
  induction l with
  | nil => intro k a hk; simp at hk
  | cons h t ih =>
    intro k a hk
    cases k with
    | zero => simp [List.set]; ring
    | succ k =>
      have hk' : k < t.length := by simpa using hk
      have hih := ih k a hk'
      simp only [List.set, List.map_cons, List.sum_cons, hih, List.get_cons_succ]
      ring

/-- The elementwise effect of one pairwise gravity update: positions are
untouched, the velocity at `i` loses the sign vector, the velocity at `j`
gains it, every other moon is unchanged. -/
theorem gravPair_getElem (ms : List Moon) (i j : Nat) (hij : i < j)
    (hj : j < ms.length) (k : Nat) :
    (gravPair ms i j)[k]? = (ms[k]?).map fun m =>
      { m with velocity :=
          let s := ((ms.get ⟨i, lt_trans hij hj⟩).position.sub
            (ms.get ⟨j, hj⟩).position).sign
          if k = i then m.velocity.sub s
          else if k = j then m.velocity.add s
          else m.velocity } := by
  have hi : i < ms.length := lt_trans hij hj
  rw [gravPair, List.getElem?_eq_getElem hi, List.getElem?_eq_getElem hj]
  simp only []
  by_cases hk : k = i
  · subst hk
    have hne : k ≠ j := Nat.ne_of_lt hij
    rw [List.getElem?_set_ne (Ne.symm hne), List.getElem?_set_eq_of_lt _ hi,
      List.getElem?_eq_getElem hi]
    simp [List.get_eq_getElem]
  · by_cases hk' : k = j
    · subst hk'
      rw [List.getElem?_set_eq_of_lt _ (by simpa using hj),
        List.getElem?_eq_getElem hj]
      simp [List.get_eq_getElem, hk]
    · rw [List.getElem?_set_ne (fun h => hk' h.symm),
        List.getElem?_set_ne (fun h => hk h.symm)]
      rcases hm : ms[k]? with _ | m
      · simp
      · simp [hk, hk']

/-! ## C2: apply_gravity visits each unordered pair once -/

/-- C2.  One call to `apply_gravity` folds the pairwise update over
`combPairs n`, which lists each unordered pair `(i, j)` with `i < j < n`
exactly once (`n * (n - 1) / 2` pairs, combinations not permutations);
each pairwise update subtracts the sign vector of `position_i - position_j`
from `velocity_i`, adds it to `velocity_j`, and touches nothing else —
in particular positions are only read, never written. -/
theorem apply_gravity_pairs (ms : List Moon) : ∀ st : Nat,
    (combPairs ms.length).length = ms.length * (ms.length - 1) / 2
  ∧ (combPairs ms.length).Nodup
  ∧ (∀ i j : Nat, (i, j) ∈ combPairs ms.length ↔ i < j ∧ j < ms.length)
  ∧ (System.apply_gravity ⟨ms, st⟩).moons
      = (combPairs ms.length).foldl (fun l p => gravPair l p.1 p.2) ms
  ∧ (System.apply_gravity ⟨ms, st⟩).step = st
  ∧ (∀ (l : List Moon) (i j : Nat) (hij : i < j) (hj : j < l.length) (k : Nat),
      (gravPair l i j)[k]? = (l[k]?).map fun m =>
        { m with velocity :=
            let s := ((l.get ⟨i, lt_trans hij hj⟩).position.sub
              (l.get ⟨j, hj⟩).position).sign
            if k = i then m.velocity.sub s
            else if k = j then m.velocity.add s
            else m.velocity })
  ∧ (∀ (l : List Moon) (i j k : Nat),
      ((gravPair l i j)[k]?).map Moon.position = (l[k]?).map Moon.position) := by
  intro st
  refine ⟨length_combPairs _, nodup_combPairs _,
    fun i j => mem_combPairs _ _, rfl, rfl, gravPair_getElem, ?_⟩
  intro l i j k
  rw [gravPair]
  rcases h1 : l[i]? with _ | m1 <;> rcases h2 : l[j]? with _ | m2 <;>
    simp only []
  have hi : i < l.length := by
    rcases List.getElem?_eq_some_iff.mp h1 with ⟨h, _⟩
    exact h
  have hjl : j < l.length := by
    rcases List.getElem?_eq_some_iff.mp h2 with ⟨h, _⟩
    exact h
  by_cases hk : k = j
  · subst hk
    rw [List.getElem?_set_eq_of_lt _ (by simpa using hjl), h2]
    rfl
  · rw [List.getElem?_set_ne (fun h => hk h.symm)]
    by_cases hk' : k = i
    · subst hk'
      rw [List.getElem?_set_eq_of_lt _ (by simpa using hi), h1]
      rfl
    · rw [List.getElem?_set_ne (fun h => hk' h.symm)]

/-! ## C3: momentum conservation -/

/-- The componentwise sum of all moons' velocity vectors. -/
def totalVelocity (ms : List Moon) : Vector3 :=
  ⟨(ms.map fun m => m.velocity.x).sum,
   (ms.map fun m => m.velocity.y).sum,
   (ms.map fun m => m.velocity.z).sum⟩

theorem gravPair_velocity_sum (f : Vector3 → Int)
    (hsub : ∀ a b : Vector3, f (a.sub b) = f a - f b)
    (hadd : ∀ a b : Vector3, f (a.add b) = f a + f b)
    (ms : List Moon) (i j : Nat) (hij : i ≠ j)
    (hi : i < ms.length) (hj : j < ms.length) :
    ((gravPair ms i j).map fun m => f m.velocity).sum
      = (ms.map fun m => f m.velocity).sum := by
  rw [gravPair, List.getElem?_eq_getElem hi, List.getElem?_eq_getElem hj]
  simp only []
  have hj' : j < (ms.set i
      { ms[i] with velocity :=
          ms[i].velocity.sub ((ms[i].position.sub ms[j].position).sign) }).length := by
    simpa using hj
  rw [sum_map_set _ _ _ _ hj', sum_map_set _ _ _ _ hi]
  have hgetj : (ms.set i
      { ms[i] with velocity :=
          ms[i].velocity.sub ((ms[i].position.sub ms[j].position).sign) }).get
        ⟨j, hj'⟩ = ms[j] := by
    simp only [List.get_eq_getElem]
    exact List.getElem_set_ne hij _
  rw [hgetj]
  simp only [List.get_eq_getElem, hsub, hadd]
  ring

theorem foldl_gravPair_length (pairs : List (Nat × Nat)) :
    ∀ ms : List Moon,
      (pairs.foldl (fun l p => gravPair l p.1 p.2) ms).length = ms.length := by
  induction pairs with
  | nil => intro ms; rfl
  | cons p t ih =>
    intro ms
    rw [List.foldl_cons, ih, gravPair_length]

theorem foldl_gravPair_velocity_sum (f : Vector3 → Int)
    (hsub : ∀ a b : Vector3, f (a.sub b) = f a - f b)
    (hadd : ∀ a b : Vector3, f (a.add b) = f a + f b) :
    ∀ (pairs : List (Nat × Nat)) (ms : List Moon),
      (∀ p ∈ pairs, p.1 < p.2 ∧ p.2 < ms.length) →
      ((pairs.foldl (fun l p => gravPair l p.1 p.2) ms).map
        fun m => f m.velocity).sum = (ms.map fun m => f m.velocity).sum := by
  intro pairs
  induction pairs with
  | nil => intro ms _; rfl
  | cons p t ih =>
    intro ms hmem
    obtain ⟨h1, h2⟩ := hmem p (List.mem_cons_self p t)
    rw [List.foldl_cons]
    rw [ih (gravPair ms p.1 p.2) (fun q hq => by
      rw [gravPair_length]
      exact hmem q (List.mem_cons_of_mem p hq))]
    exact gravPair_velocity_sum f hsub hadd ms p.1 p.2 (Nat.ne_of_lt h1)
      (lt_trans h1 h2) h2

/-- C3.  Momentum conservation: `apply_gravity` leaves the componentwise
sum of all moons' velocity vectors unchanged, for every system (any number
of moons, any velocities) — each pair's `-s` / `+s` adjustments cancel. -/
theorem apply_gravity_total_velocity (s : System) :
    totalVelocity s.apply_gravity.moons = totalVelocity s.moons := by
  have hmem : ∀ p ∈ combPairs s.moons.length, p.1 < p.2 ∧ p.2 < s.moons.length :=
    fun p hp => (mem_combPairs _ p).mp hp
  have hx := foldl_gravPair_velocity_sum (fun v => v.x)
    (fun a b => rfl) (fun a b => rfl) (combPairs s.moons.length) s.moons hmem
  have hy := foldl_gravPair_velocity_sum (fun v => v.y)
    (fun a b => rfl) (fun a b => rfl) (combPairs s.moons.length) s.moons hmem
  have hz := foldl_gravPair_velocity_sum (fun v => v.z)
    (fun a b => rfl) (fun a b => rfl) (combPairs s.moons.length) s.moons hmem
  simp only [totalVelocity, System.apply_gravity]
  rw [hx, hy, hz]

/-! ## C4: the frame effect of tick -/

/-- C4.  `tick` increments the step counter by exactly one, moves every
moon to `position + velocity` in place (same list length and order), and
leaves every velocity unchanged. -/
theorem tick_effect (s : System) :
    s.tick.step = s.step + 1
  ∧ s.tick.moons.length = s.moons.length
  ∧ (∀ k : Nat, s.tick.moons[k]?
      = (s.moons[k]?).map fun m =>
          { m with position := m.position.add m.velocity })
  ∧ (∀ k : Nat, (s.tick.moons[k]?).map Moon.velocity
      = (s.moons[k]?).map Moon.velocity) := by
  refine ⟨rfl, by simp [System.tick], fun k => ?_, fun k => ?_⟩
  · rw [System.tick]
    simp only [List.getElem?_map]
    rfl
  · rw [System.tick]
    simp only [List.getElem?_map, Option.map_map]
    rfl

/-! ## C5: Part 1 performs exactly 1000 advances and reports total energy -/

/-- C5.  Part 1 is exactly 1000 advances (each `apply_gravity` then
`tick`) from the freshly built system, and the reported value is the sum
over the moons of potential times kinetic energy, each the sum of absolute
values of the three components. -/
theorem part1_energy (ps : List Vector3) :
    (∀ s : System, advance s = s.apply_gravity.tick)
  ∧ part1 ps = ((advance^[1000]
      { moons := initialMoons ps, step := 0 }).moons.map fun m =>
        (|m.position.x| + |m.position.y| + |m.position.z|) *
        (|m.velocity.x| + |m.velocity.y| + |m.velocity.z|)).sum := by
  refine ⟨fun s => rfl, ?_⟩
  rw [part1, part1System, System.energy]
  refine congrArg List.sum (List.map_congr_left fun m _ => ?_)
  simp only [Moon.total_energy, Moon.potential_energy, Moon.kinetic_energy,
    List.map_cons, List.map_nil, List.sum_cons, List.sum_nil]
  ring

/-! ## C1: what state Part 2 actually starts from -/

/-- The effect of one advance on the moon list alone (the step counter
does not influence it). -/
def advMoons (ms : List Moon) : List Moon :=
  (advance { moons := ms, step := 0 }).moons

theorem moons_iterate : ∀ (n : Nat) (s : System),
    (advance^[n] s).moons = advMoons^[n] s.moons := by
  intro n
  induction n with
  | zero => intro s; rfl
  | succ n ih =>
    intro s
    rw [Function.iterate_succ_apply', Function.iterate_succ_apply',
      show (advance (advance^[n] s)).moons = advMoons (advance^[n] s).moons from rfl,
      ih]

/-- C1 evidence.  On the two-moon input `<x=3, y=0, z=0>`, `<x=5, y=0, z=0>`
the moon list Part 2's `System(moons)` starts from is the Part-1-mutated
step-1000 state (positions (4,0,0) twice, velocities (-1,0,0) and
(1,0,0)), not the initial configuration: the claim that Part 2's step-0
state equals the pre-Part-1 configuration fails on the code. -/
theorem part2Start_is_mutated :
    (part2StartSystem [⟨3, 0, 0⟩, ⟨5, 0, 0⟩]).moons
      = [⟨⟨4, 0, 0⟩, ⟨-1, 0, 0⟩⟩, ⟨⟨4, 0, 0⟩, ⟨1, 0, 0⟩⟩]
  ∧ (part2StartSystem [⟨3, 0, 0⟩, ⟨5, 0, 0⟩]).moons
      ≠ initialMoons [⟨3, 0, 0⟩, ⟨5, 0, 0⟩] := by
  have hmoons : (part2StartSystem [⟨3, 0, 0⟩, ⟨5, 0, 0⟩]).moons
      = advMoons^[1000] (initialMoons [⟨3, 0, 0⟩, ⟨5, 0, 0⟩]) := by
    rw [part2StartSystem, part1System, moons_iterate]
  have h6 : advMoons^[6] (advMoons^[4] (initialMoons [⟨3, 0, 0⟩, ⟨5, 0, 0⟩]))
      = advMoons^[4] (initialMoons [⟨3, 0, 0⟩, ⟨5, 0, 0⟩]) := by decide
  have h1000 : advMoons^[1000] (initialMoons [⟨3, 0, 0⟩, ⟨5, 0, 0⟩])
      = advMoons^[4] (initialMoons [⟨3, 0, 0⟩, ⟨5, 0, 0⟩]) := by
    rw [show (1000 : Nat) = 996 + 4 from rfl, Function.iterate_add_apply,
      show (996 : Nat) = 6 * 166 from rfl, Function.iterate_mul]
    exact Function.iterate_fixed h6 166
  rw [hmoons, h1000]
  exact ⟨by decide, by decide⟩

/-! ## C6: the float division inside lcm -/

/-- C6 counterexample.  `lcm(a, b) = int(a * b / gcd(a, b))` loses
precision: at `a = 2 ^ 53 + 1`, `b = 1` the true least common multiple is
`2 ^ 53 + 1`, but the float true division rounds it (ties to even) to
`2 ^ 53`. -/
theorem lcm_truncates_at_large_values :
    lcm 9007199254740993 1 = 9007199254740992
  ∧ Nat.lcm 9007199254740993 1 = 9007199254740993 :=
  ⟨by decide, by decide⟩

/-- C6 amended.  Whenever the true least common multiple is below
`2 ^ 53` (so the double holds it exactly), the program's `lcm` returns it
exactly; and `lcms` combines three values pairwise as
`lcm(lcm(a, b), c)`.  Above `2 ^ 53` the float rounding can change the
result. -/
theorem lcm_exact_below_2_pow_53 :
    (∀ a b : Nat, Nat.lcm a b < 2 ^ 53 → lcm a b = Nat.lcm a b)
  ∧ (∀ a b c : Nat, lcms [a, b, c] = lcm (lcm a b) c) := by
  constructor
  · intro a b h
    rw [lcm, show a * b / Nat.gcd a b = Nat.lcm a b from rfl, float64Round,
      if_pos h]
  · intro a b c
    rfl

/-! ## C7: a single moon has period 1 on every axis -/

theorem vadd_zero (v : Vector3) : v.add ⟨0, 0, 0⟩ = v := by
  cases v; simp [Vector3.add]

/-- A single moon with zero velocity is a fixed point of `advance` (no
pairs for gravity, zero velocity for movement); only the step counter
moves. -/
theorem advance_single (p : Vector3) (st : Nat) :
    advance { moons := [⟨p, ⟨0, 0, 0⟩⟩], step := st }
      = { moons := [⟨p, ⟨0, 0, 0⟩⟩], step := st + 1 } := by
  have hcomb : combPairs 1 = [] := by decide
  simp [advance, System.apply_gravity, System.tick, hcomb, Moon.move, vadd_zero]

/-- C7.  Part 2's detection on a system of one moon with zero velocity
(any start position) records period 1 for every axis — step 0 inserts each
axis state, the advance leaves the state unchanged, step 1 finds the
duplicate — and the combined period `lcms [1, 1, 1]` is 1.  Fuel 2
suffices: the loop breaks in its second iteration. -/
theorem part2_single_moon (p : Vector3) :
    part2Loop 2 (initLoop
        { moons := [{ position := p, velocity := ⟨0, 0, 0⟩ }], step := 0 })
      = some (some 1, some 1, some 1)
  ∧ lcms [1, 1, 1] = 1 := by
  constructor
  · simp [part2Loop, checkPhase, axisCheck, System.state, System.stateX,
      System.stateY, System.stateZ, allPeriod, truthy, initLoop,
      advance_single p 0]
  · decide

/-! ## C8: parse_vec on well-formed and malformed lines -/

theorem digit_not_ws (ch : Char) (h1 : '0' ≤ ch) : isPyWs ch = false := by
  have w1 : ch ≠ ' ' := by rintro rfl; revert h1; decide
  have w2 : ch ≠ '\t' := by rintro rfl; revert h1; decide
  have w3 : ch ≠ '\n' := by rintro rfl; revert h1; decide
  have w4 : ch ≠ '\r' := by rintro rfl; revert h1; decide
  have w5 : ch ≠ '\x0b' := by rintro rfl; revert h1; decide
  have w6 : ch ≠ '\x0c' := by rintro rfl; revert h1; decide
  simp [isPyWs, w1, w2, w3, w4, w5, w6]

theorem digitsOnly_spec (l : List Char) (h : digitsOnly l = true) :
    l ≠ [] ∧ ∀ ch ∈ l, '0' ≤ ch ∧ ch ≤ '9' := by
  rw [digitsOnly, Bool.and_eq_true] at h
  obtain ⟨h1, h2⟩ := h
  constructor
  · intro hnil
    subst hnil
    simp at h1
  · intro ch hch
    simpa using List.all_eq_true.mp h2 ch hch

theorem intLit_cons (c : Char) (rest : List Char) :
    intLit (c :: rest)
      = if c = '-' ∨ c = '+' then digitsOnly rest else digitsOnly (c :: rest) :=
  rfl

theorem litVal_cons (c : Char) (rest : List Char) :
    litVal (c :: rest)
      = if c = '-' then -(digitsVal rest : Int)
        else if c = '+' then (digitsVal rest : Int)
        else (digitsVal (c :: rest) : Int) :=
  rfl

theorem mem_intLit (l : List Char) (h : intLit l = true) (ch : Char)
    (hch : ch ∈ l) : ch = '-' ∨ ch = '+' ∨ ('0' ≤ ch ∧ ch ≤ '9') := by
  cases l with
  | nil => cases hch
  | cons c rest =>
    rw [intLit_cons] at h
    by_cases hc : c = '-' ∨ c = '+'
    · rw [if_pos hc] at h
      rcases List.mem_cons.mp hch with rfl | hrest
      · rcases hc with rfl | rfl
        · exact Or.inl rfl
        · exact Or.inr (Or.inl rfl)
      · exact Or.inr (Or.inr ((digitsOnly_spec rest h).2 ch hrest))
    · rw [if_neg hc] at h
      exact Or.inr (Or.inr ((digitsOnly_spec _ h).2 ch hch))

/-- Every character of an optionally-signed literal is harmless for the
stripping pipeline: not one of the stripped or structural characters, and
not whitespace. -/
theorem mem_intLit_ne (l : List Char) (h : intLit l = true) (ch : Char)
    (hch : ch ∈ l) :
    ch ≠ '<' ∧ ch ≠ '>' ∧ ch ≠ ' ' ∧ ch ≠ ',' ∧ ch ≠ 'x' ∧ ch ≠ 'y'
      ∧ ch ≠ 'z' ∧ isPyWs ch = false := by
  rcases mem_intLit l h ch hch with rfl | rfl | ⟨h1, h2⟩
  · decide
  · decide
  · refine ⟨?_, ?_, ?_, ?_, ?_, ?_, ?_, digit_not_ws ch h1⟩ <;>
      (rintro rfl; revert h1 h2; decide)

theorem pyDigitsAux_cons_not_underscore (acc : Nat) (ch : Char) (t : List Char)
    (hne : ch ≠ '_') :
    pyDigitsAux acc (ch :: t) = (match digVal ch with
      | some d => pyDigitsAux (acc * 10 + d) t
      | none => none) := by
  rw [pyDigitsAux.eq_def]
  simp only []
  rw [if_neg hne]

theorem pyDigitsAux_all_digits :
    ∀ (ds : List Char) (acc : Nat),
      (∀ ch ∈ ds, '0' ≤ ch ∧ ch ≤ '9') →
      pyDigitsAux acc ds
        = some (ds.foldl (fun a ch => a * 10 + (ch.toNat - '0'.toNat)) acc) := by
  intro ds
  induction ds with
  | nil => intro acc _; rfl
  | cons ch t ih =>
    intro acc h
    have hch := h ch (List.mem_cons_self ch t)
    have hne : ch ≠ '_' := by rintro rfl; revert hch; decide
    have hdv : digVal ch = some (ch.toNat - '0'.toNat) := by
      rw [digVal, if_pos hch]
    rw [pyDigitsAux_cons_not_underscore acc ch t hne, hdv]
    simp only [List.foldl_cons]
    exact ih _ fun c0 hc0 => h c0 (List.mem_cons_of_mem ch hc0)

theorem pyDigits_all_digits (l : List Char) (hl : l ≠ [])
    (h : ∀ ch ∈ l, '0' ≤ ch ∧ ch ≤ '9') :
    pyDigits l = some (digitsVal l) := by
  cases l with
  | nil => exact absurd rfl hl
  | cons ch t =>
    have hch := h ch (List.mem_cons_self ch t)
    have hne : ch ≠ '_' := by rintro rfl; revert hch; decide
    rw [pyDigits.eq_def]
    simp only []
    rw [if_neg hne]
    exact pyDigitsAux_all_digits (ch :: t) 0 h

theorem dropWhile_no (p : Char → Bool) :
    ∀ l : List Char, (∀ ch ∈ l, p ch = false) → l.dropWhile p = l := by
  intro l h
  cases l with
  | nil => rfl
  | cons c t =>
    rw [List.dropWhile_cons, h c (List.mem_cons_self c t)]
    simp

theorem stripWs_no_ws (l : List Char) (h : ∀ ch ∈ l, isPyWs ch = false) :
    stripWs l = l := by
  rw [stripWs, dropWhile_no _ l h,
    dropWhile_no _ l.reverse (fun ch hc => h ch (List.mem_reverse.mp hc)),
    List.reverse_reverse]

/-- `int()` on any optionally-signed literal the spec's grammar admits
(leading zeros and `+` included) returns the denoted integer. -/
theorem pyInt_intLit (l : List Char) (h : intLit l = true) :
    pyInt l = some (litVal l) := by
  cases l with
  | nil => simp [intLit] at h
  | cons c rest =>
    have hstrip : stripWs (c :: rest) = c :: rest :=
      stripWs_no_ws _ fun ch hc => (mem_intLit_ne _ h ch hc).2.2.2.2.2.2.2
    rw [pyInt]
    rw [hstrip]
    rw [intLit_cons] at h
    by_cases hneg : c = '-'
    · subst hneg
      rw [if_pos (Or.inl rfl)] at h
      obtain ⟨hne, hdig⟩ := digitsOnly_spec rest h
      show (pyDigits rest).map (fun n => -(n : Int)) = some (litVal ('-' :: rest))
      rw [pyDigits_all_digits rest hne hdig]
      rfl
    · by_cases hplus : c = '+'
      · subst hplus
        rw [if_pos (Or.inr rfl)] at h
        obtain ⟨hne, hdig⟩ := digitsOnly_spec rest h
        show (pyDigits rest).map (fun n => (n : Int)) = some (litVal ('+' :: rest))
        rw [pyDigits_all_digits rest hne hdig]
        rfl
      · rw [if_neg (fun hc => hc.elim hneg hplus)] at h
        obtain ⟨hne, hdig⟩ := digitsOnly_spec _ h
        show (if c = '-' then (pyDigits rest).map (fun n => -(n : Int))
          else if c = '+' then (pyDigits rest).map (fun n => (n : Int))
          else (pyDigits (c :: rest)).map (fun n => (n : Int)))
          = some (litVal (c :: rest))
        rw [if_neg hneg, if_neg hplus, pyDigits_all_digits _ hne hdig,
          litVal_cons, if_neg hneg, if_neg hplus]
        rfl

theorem pySplit_ne_nil (sep : Char) : ∀ l : List Char, pySplit sep l ≠ [] := by
  intro l
  cases l with
  | nil => simp [pySplit]
  | cons c t =>
    rw [pySplit.eq_def]
    simp only []
    rcases pySplit sep t with _ | ⟨h0, t0⟩
    · simp
    · split_ifs <;> simp

theorem pySplit_no_sep (sep : Char) :
    ∀ l : List Char, (∀ ch ∈ l, ch ≠ sep) → pySplit sep l = [l] := by
  intro l
  induction l with
  | nil => intro _; rfl
  | cons c t ih =>
    intro h
    rw [pySplit.eq_def]
    simp only []
    rw [ih fun ch hc => h ch (List.mem_cons_of_mem c hc)]
    simp only []
    rw [if_neg (h c (List.mem_cons_self c t))]

theorem pySplit_append_sep (sep : Char) :
    ∀ l1 l2 : List Char, (∀ ch ∈ l1, ch ≠ sep) →
      pySplit sep (l1 ++ sep :: l2) = l1 :: pySplit sep l2 := by
  intro l1
  induction l1 with
  | nil =>
    intro l2 _
    rw [List.nil_append, pySplit.eq_def]
    simp only []
    rcases hsp : pySplit sep l2 with _ | ⟨h0, t0⟩
    · exact absurd hsp (pySplit_ne_nil sep l2)
    · simp
  | cons c t ih =>
    intro l2 h
    rw [List.cons_append, pySplit.eq_def]
    simp only []
    rw [ih l2 fun ch hc => h ch (List.mem_cons_of_mem c hc)]
    simp only []
    rw [if_neg (h c (List.mem_cons_self c t))]

theorem removeLabel_no_lab (lab : Char) :
    ∀ l : List Char, (∀ ch ∈ l, ch ≠ lab) → removeLabel lab l = l := by
  intro l
  induction l with
  | nil => intro _; rfl
  | cons c t ih =>
    intro h
    cases t with
    | nil => rfl
    | cons c2 t2 =>
      rw [removeLabel.eq_def]
      simp only []
      rw [if_neg fun hc => (h c (List.mem_cons_self c (c2 :: t2))) hc.1]
      rw [ih fun ch hc => h ch (List.mem_cons_of_mem c hc)]

theorem removeLabel_strip (lab : Char) (l : List Char)
    (h : ∀ ch ∈ l, ch ≠ lab) :
    removeLabel lab (lab :: '=' :: l) = l := by
  rw [removeLabel.eq_def]
  simp [removeLabel_no_lab lab l h]

/-- The three filters of `parse_vec`, fused as `simp` fuses them, keep
every character of an optionally-signed literal. -/
theorem filter_fused_intLit (l : List Char) (h : intLit l = true) :
    l.filter
        (fun ch => !decide (ch = ' ') && (!decide (ch = '>') && !decide (ch = '<')))
      = l := by
  apply List.filter_eq_self.mpr
  intro ch hch
  have hp := mem_intLit_ne l h ch hch
  simp [hp.1, hp.2.1, hp.2.2.1]

/-- The stripping pipeline of `parse_vec` on a well-formed line: `<`, `>`
and the two spaces go, everything else stays. -/
theorem strip_shapeLine (A B C : List Char) (hA : intLit A = true)
    (hB : intLit B = true) (hC : intLit C = true) :
    ((('<' :: 'x' :: '=' :: (A ++ ',' :: ' ' :: 'y' :: '='
        :: (B ++ ',' :: ' ' :: 'z' :: '=' :: (C ++ ['>'])))).filter
      (· ≠ '<')).filter (· ≠ '>')).filter (· ≠ ' ')
      = 'x' :: '=' :: (A ++ ',' :: 'y' :: '='
          :: (B ++ ',' :: 'z' :: '=' :: C)) := by
  simp [List.filter_append, List.filter_cons,
    filter_fused_intLit A hA, filter_fused_intLit B hB, filter_fused_intLit C hC]

/-- `parse_vec` on EVERY line of the `<x=I, y=I, z=I>` shape, with the
three literals arbitrary: it returns the three denoted integers. -/
theorem parse_vec_shape (A B C : List Char) (hA : intLit A = true)
    (hB : intLit B = true) (hC : intLit C = true) :
    parse_vec ('<' :: 'x' :: '=' :: (A ++ ',' :: ' ' :: 'y' :: '='
        :: (B ++ ',' :: ' ' :: 'z' :: '=' :: (C ++ ['>']))))
      = some ⟨litVal A, litVal B, litVal C⟩ := by
  have hmem1 : ∀ ch ∈ 'x' :: '=' :: A, ch ≠ ',' := by
    intro ch hch
    rcases List.mem_cons.mp hch with rfl | hch
    · decide
    rcases List.mem_cons.mp hch with rfl | hch
    · decide
    · exact (mem_intLit_ne A hA ch hch).2.2.2.1
  have hmem2 : ∀ ch ∈ 'y' :: '=' :: B, ch ≠ ',' := by
    intro ch hch
    rcases List.mem_cons.mp hch with rfl | hch
    · decide
    rcases List.mem_cons.mp hch with rfl | hch
    · decide
    · exact (mem_intLit_ne B hB ch hch).2.2.2.1
  have hmem3 : ∀ ch ∈ 'z' :: '=' :: C, ch ≠ ',' := by
    intro ch hch
    rcases List.mem_cons.mp hch with rfl | hch
    · decide
    rcases List.mem_cons.mp hch with rfl | hch
    · decide
    · exact (mem_intLit_ne C hC ch hch).2.2.2.1
  have hsplit3 : pySplit ',' ('z' :: '=' :: C) = ['z' :: '=' :: C] :=
    pySplit_no_sep ',' _ hmem3
  have hsplit2 : pySplit ',' ('y' :: '=' :: (B ++ ',' :: 'z' :: '=' :: C))
      = ('y' :: '=' :: B) :: pySplit ',' ('z' :: '=' :: C) := by
    rw [show 'y' :: '=' :: (B ++ ',' :: 'z' :: '=' :: C)
        = ('y' :: '=' :: B) ++ ',' :: ('z' :: '=' :: C) from by simp]
    exact pySplit_append_sep ',' _ _ hmem2
  have hsplit1 : pySplit ','
        ('x' :: '=' :: (A ++ ',' :: 'y' :: '='
          :: (B ++ ',' :: 'z' :: '=' :: C)))
      = ('x' :: '=' :: A)
        :: pySplit ',' ('y' :: '=' :: (B ++ ',' :: 'z' :: '=' :: C)) := by
    rw [show 'x' :: '=' :: (A ++ ',' :: 'y' :: '='
          :: (B ++ ',' :: 'z' :: '=' :: C))
        = ('x' :: '=' :: A) ++ ',' :: ('y' :: '='
          :: (B ++ ',' :: 'z' :: '=' :: C)) from by simp]
    exact pySplit_append_sep ',' _ _ hmem1
  have hlabA : removeLabel 'x' ('x' :: '=' :: A) = A :=
    removeLabel_strip 'x' _ fun ch hc => (mem_intLit_ne A hA ch hc).2.2.2.2.1
  have hlabB : removeLabel 'y' ('y' :: '=' :: B) = B :=
    removeLabel_strip 'y' _ fun ch hc => (mem_intLit_ne B hB ch hc).2.2.2.2.2.1
  have hlabC : removeLabel 'z' ('z' :: '=' :: C) = C :=
    removeLabel_strip 'z' _ fun ch hc => (mem_intLit_ne C hC ch hc).2.2.2.2.2.2.1
  simp only [parse_vec]
  rw [strip_shapeLine A B C hA hB hC, hsplit1, hsplit2, hsplit3]
  simp only [List.getElem?_cons_zero, List.getElem?_cons_succ]
  rw [hlabA, hlabB, hlabC, pyInt_intLit A hA, pyInt_intLit B hB,
    pyInt_intLit C hC]

/-- C8 counterexample.  The line `1,2,3` does not match the spec's
`<x=I, y=I, z=I>` shape, yet `parse_vec` happily returns `Vector3(1, 2, 3)`
instead of failing: the parser is lenient, not a hard shape check. -/
theorem parse_vec_accepts_nonmatching :
    matchesShape ['1', ',', '2', ',', '3'] = false
  ∧ parse_vec ['1', ',', '2', ',', '3'] = some ⟨1, 2, 3⟩ :=
  ⟨by decide, by decide⟩

theorem pySplit_joinSep (sep : Char) :
    ∀ s : List Char, joinSep sep (pySplit sep s) = s := by
  intro s
  induction s with
  | nil => rfl
  | cons c rest ih =>
    rcases hsp : pySplit sep rest with _ | ⟨h0, t0⟩
    · exact absurd hsp (pySplit_ne_nil sep rest)
    · rw [pySplit.eq_def]
      simp only []
      rw [hsp]
      simp only []
      by_cases hc : c = sep
      · subst hc
        rw [if_pos rfl]
        show ([] : List Char) ++ c :: joinSep c (h0 :: t0) = c :: rest
        rw [List.nil_append, ← hsp, ih]
      · rw [if_neg hc]
        cases t0 with
        | nil =>
          show c :: h0 = c :: rest
          have hh : h0 = rest := by
            rw [← ih, hsp]
            rfl
          rw [hh]
        | cons d t1 =>
          show (c :: h0) ++ sep :: joinSep sep (d :: t1) = c :: rest
          have hh : h0 ++ sep :: joinSep sep (d :: t1) = rest := by
            rw [← ih, hsp]
            rfl
          rw [List.cons_append, hh]

theorem shapeX_inv (p : List Char) (h : shapeX p = true) :
    ∃ A, intLit A = true ∧ p = '<' :: 'x' :: '=' :: A := by
  rcases p with _ | ⟨c1, _ | ⟨c2, _ | ⟨c3, a⟩⟩⟩
  · simp [shapeX] at h
  · simp [shapeX] at h
  · simp [shapeX] at h
  · simp [shapeX] at h
    obtain ⟨⟨⟨rfl, rfl⟩, rfl⟩, ha⟩ := h
    exact ⟨a, ha, rfl⟩

theorem shapeY_inv (p : List Char) (h : shapeY p = true) :
    ∃ B, intLit B = true ∧ p = ' ' :: 'y' :: '=' :: B := by
  rcases p with _ | ⟨c1, _ | ⟨c2, _ | ⟨c3, b⟩⟩⟩
  · simp [shapeY] at h
  · simp [shapeY] at h
  · simp [shapeY] at h
  · simp [shapeY] at h
    obtain ⟨⟨⟨rfl, rfl⟩, rfl⟩, hb⟩ := h
    exact ⟨b, hb, rfl⟩

theorem shapeZ_inv (p : List Char) (h : shapeZ p = true) :
    ∃ C, intLit C = true ∧ p = ' ' :: 'z' :: '=' :: (C ++ ['>']) := by
  rcases p with _ | ⟨c1, _ | ⟨c2, _ | ⟨c3, c⟩⟩⟩
  · simp [shapeZ] at h
  · simp [shapeZ] at h
  · simp [shapeZ] at h
  · simp [shapeZ] at h
    obtain ⟨⟨⟨⟨rfl, rfl⟩, rfl⟩, hlast⟩, hC⟩ := h
    refine ⟨c.dropLast, hC, ?_⟩
    have h2 := List.dropLast_append_getLast? '>'
      (show '>' ∈ c.getLast? from Option.mem_def.mpr hlast)
    rw [h2]

/-- Every line `matchesShape` accepts decomposes into the exact
`<x=I, y=I, z=I>` shape with three literals of the spec's grammar. -/
theorem matchesShape_inv (s : List Char) (h : matchesShape s = true) :
    ∃ A B C, intLit A = true ∧ intLit B = true ∧ intLit C = true
      ∧ s = '<' :: 'x' :: '=' :: (A ++ ',' :: ' ' :: 'y' :: '='
          :: (B ++ ',' :: ' ' :: 'z' :: '=' :: (C ++ ['>']))) := by
  rw [matchesShape.eq_def] at h
  rcases hsp : pySplit ',' s with _ | ⟨p1, _ | ⟨p2, _ | ⟨p3, _ | ⟨p4, t4⟩⟩⟩⟩ <;>
    rw [hsp] at h
  · exact absurd (show (false : Bool) = true from h) (by decide)
  · exact absurd (show (false : Bool) = true from h) (by decide)
  · exact absurd (show (false : Bool) = true from h) (by decide)
  · have h3 : (shapeX p1 && shapeY p2 && shapeZ p3) = true := h
    rw [Bool.and_eq_true, Bool.and_eq_true] at h3
    obtain ⟨⟨hx, hy⟩, hz⟩ := h3
    have hjoin := pySplit_joinSep ',' s
    rw [hsp] at hjoin
    obtain ⟨A, hA, rfl⟩ := shapeX_inv p1 hx
    obtain ⟨B, hB, rfl⟩ := shapeY_inv p2 hy
    obtain ⟨C, hC, rfl⟩ := shapeZ_inv p3 hz
    refine ⟨A, B, C, hA, hB, hC, ?_⟩
    rw [← hjoin]
    show ('<' :: 'x' :: '=' :: A) ++ ',' :: ((' ' :: 'y' :: '=' :: B)
        ++ ',' :: (' ' :: 'z' :: '=' :: (C ++ ['>'])))
      = '<' :: 'x' :: '=' :: (A ++ ',' :: ' ' :: 'y' :: '='
          :: (B ++ ',' :: ' ' :: 'z' :: '=' :: (C ++ ['>'])))
    simp
  · exact absurd (show (false : Bool) = true from h) (by decide)

/-- `parse_vec` fails exactly when the stripped, comma-split line has
fewer than three pieces, or one of the first three pieces does not parse
as an integer after its label is removed — Python's `IndexError` and
`ValueError` respectively, both fatal. -/
theorem parse_vec_none_iff (s : List Char) :
    parse_vec s = none ↔
      ((parsePieces s)[2]? = none
      ∨ (∃ v, (parsePieces s)[0]? = some v ∧ pyInt (removeLabel 'x' v) = none)
      ∨ (∃ v, (parsePieces s)[1]? = some v ∧ pyInt (removeLabel 'y' v) = none)
      ∨ (∃ v, (parsePieces s)[2]? = some v ∧ pyInt (removeLabel 'z' v) = none)) := by
  show (match (parsePieces s)[0]?, (parsePieces s)[1]?, (parsePieces s)[2]? with
    | some v0, some v1, some v2 =>
      match pyInt (removeLabel 'x' v0), pyInt (removeLabel 'y' v1),
          pyInt (removeLabel 'z' v2) with
      | some a, some b, some c => some (⟨a, b, c⟩ : Vector3)
      | _, _, _ => none
    | _, _, _ => none) = none ↔ _
  rcases h0 : (parsePieces s)[0]? with _ | v0
  · have h1 : (parsePieces s)[1]? = none := by
      have := List.getElem?_eq_none_iff.mp h0
      exact List.getElem?_eq_none_iff.mpr (by omega)
    have h2 : (parsePieces s)[2]? = none := by
      have := List.getElem?_eq_none_iff.mp h0
      exact List.getElem?_eq_none_iff.mpr (by omega)
    rw [h1, h2]
    exact iff_of_true rfl (Or.inl rfl)
  · rcases h1 : (parsePieces s)[1]? with _ | v1
    · have h2 : (parsePieces s)[2]? = none := by
        have := List.getElem?_eq_none_iff.mp h1
        exact List.getElem?_eq_none_iff.mpr (by omega)
      rw [h2]
      exact iff_of_true rfl (Or.inl rfl)
    · rcases h2 : (parsePieces s)[2]? with _ | v2
      · exact iff_of_true rfl (Or.inl rfl)
      · show (match pyInt (removeLabel 'x' v0), pyInt (removeLabel 'y' v1),
            pyInt (removeLabel 'z' v2) with
          | some a, some b, some c => some (⟨a, b, c⟩ : Vector3)
          | _, _, _ => none) = none ↔ _
        rcases hx : pyInt (removeLabel 'x' v0) with _ | a <;>
          rcases hy : pyInt (removeLabel 'y' v1) with _ | b <;>
            rcases hz : pyInt (removeLabel 'z' v2) with _ | c0
        · exact iff_of_true rfl (Or.inr (Or.inl ⟨v0, rfl, hx⟩))
        · exact iff_of_true rfl (Or.inr (Or.inl ⟨v0, rfl, hx⟩))
        · exact iff_of_true rfl (Or.inr (Or.inl ⟨v0, rfl, hx⟩))
        · exact iff_of_true rfl (Or.inr (Or.inl ⟨v0, rfl, hx⟩))
        · exact iff_of_true rfl (Or.inr (Or.inr (Or.inl ⟨v1, rfl, hy⟩)))
        · exact iff_of_true rfl (Or.inr (Or.inr (Or.inl ⟨v1, rfl, hy⟩)))
        · exact iff_of_true rfl (Or.inr (Or.inr (Or.inr ⟨v2, rfl, hz⟩)))
        · refine iff_of_false (by simp) ?_
          rintro (hd | ⟨v, hv, hpy⟩ | ⟨v, hv, hpy⟩ | ⟨v, hv, hpy⟩)
          · exact Option.noConfusion hd
          · obtain rfl := Option.some.inj hv
            rw [hx] at hpy
            exact Option.noConfusion hpy
          · obtain rfl := Option.some.inj hv
            rw [hy] at hpy
            exact Option.noConfusion hpy
          · obtain rfl := Option.some.inj hv
            rw [hz] at hpy
            exact Option.noConfusion hpy

/-- C8 amended.  EVERY line matching the `<x=I, y=I, z=I>` shape — the
three literals arbitrary optionally-signed integers, `+` signs and
leading zeros included — is parsed by `parse_vec` to the `Vector3` of the
three denoted integers; and `parse_vec` hard-fails exactly when the
stripped, comma-split line has fewer than three pieces or one of the
first three pieces is not a valid integer after label removal.  Lines
outside the shape are NOT all rejected: the parser is lenient (see the
counterexample). -/
theorem parse_vec_wellformed :
    (∀ s : List Char, matchesShape s = true →
      ∃ A B C : List Char, intLit A = true ∧ intLit B = true ∧ intLit C = true
        ∧ s = '<' :: 'x' :: '=' :: (A ++ ',' :: ' ' :: 'y' :: '='
            :: (B ++ ',' :: ' ' :: 'z' :: '=' :: (C ++ ['>'])))
        ∧ parse_vec s = some ⟨litVal A, litVal B, litVal C⟩)
  ∧ (∀ s : List Char, parse_vec s = none ↔
      ((parsePieces s)[2]? = none
      ∨ (∃ v, (parsePieces s)[0]? = some v ∧ pyInt (removeLabel 'x' v) = none)
      ∨ (∃ v, (parsePieces s)[1]? = some v ∧ pyInt (removeLabel 'y' v) = none)
      ∨ (∃ v, (parsePieces s)[2]? = some v ∧ pyInt (removeLabel 'z' v) = none))) := by
  constructor
  · intro s hs
    obtain ⟨A, B, C, hA, hB, hC, rfl⟩ := matchesShape_inv s hs
    exact ⟨A, B, C, hA, hB, hC, rfl, parse_vec_shape A B C hA hB hC⟩
  · exact parse_vec_none_iff

/-! ## The Part 2 loop invariant, for C9 and C10

`sysAt s0 t` is the system after `t` advances.  For each axis, either the
period is still unknown — then the seen-set holds exactly the axis states
of steps `0 .. t-1` and those states are pairwise distinct — or the period
`p` was recorded, with `1 ≤ p ≤ t` and a genuine recurrence
`proj (sysAt t1) = proj (sysAt p)` for some `t1 < p`. -/

/-- The system after `t` advances from `s0`. -/
def sysAt (s0 : System) (t : Nat) : System :=
  advance^[t] s0

theorem sysAt_succ (s0 : System) (t : Nat) :
    sysAt s0 (t + 1) = advance (sysAt s0 t) :=
  Function.iterate_succ_apply' advance t s0

theorem sysAt_step (s0 : System) (h0 : s0.step = 0) :
    ∀ t, (sysAt s0 t).step = t := by
  intro t
  induction t with
  | zero => exact h0
  | succ t ih =>
    rw [sysAt_succ, show (advance (sysAt s0 t)).step = (sysAt s0 t).step + 1
      from rfl, ih]

/-- The per-axis invariant (see the section comment). -/
def AxInv (s0 : System) (proj : System → List (Int × Int)) (t : Nat)
    (hist : List (List (Int × Int))) : Option Nat → Prop
  | some p => 1 ≤ p ∧ p ≤ t
      ∧ ∃ t1, t1 < p ∧ proj (sysAt s0 t1) = proj (sysAt s0 p)
  | none => (∀ l, l ∈ hist ↔ ∃ k, k < t ∧ l = proj (sysAt s0 k))
      ∧ ∀ k1 k2, k1 < k2 → k2 < t → proj (sysAt s0 k1) ≠ proj (sysAt s0 k2)

/-- The whole loop-state invariant at iteration `t`. -/
def LoopInv (s0 : System) (t : Nat) (st : LoopState) : Prop :=
  st.sys = sysAt s0 t
  ∧ AxInv s0 System.stateX t st.histX st.perX
  ∧ AxInv s0 System.stateY t st.histY st.perY
  ∧ AxInv s0 System.stateZ t st.histZ st.perZ

theorem axisCheck_some (step : Nat) (axSt : List (Int × Int))
    (hist : List (List (Int × Int))) (p : Nat) :
    axisCheck step axSt hist (some p) = (hist, some p) := rfl

theorem axisCheck_none_mem (step : Nat) (axSt : List (Int × Int))
    (hist : List (List (Int × Int))) (h : axSt ∈ hist) :
    axisCheck step axSt hist none = (hist, some step) := by
  show (if axSt ∈ hist then (hist, some step) else (axSt :: hist, none))
    = (hist, some step)
  rw [if_pos h]

theorem axisCheck_none_not_mem (step : Nat) (axSt : List (Int × Int))
    (hist : List (List (Int × Int))) (h : axSt ∉ hist) :
    axisCheck step axSt hist none = (axSt :: hist, none) := by
  show (if axSt ∈ hist then (hist, some step) else (axSt :: hist, none))
    = (axSt :: hist, none)
  rw [if_neg h]

/-- One `axisCheck` at step `t` carries the per-axis invariant from `t`
to `t + 1`. -/
theorem axisCheck_inv (s0 : System) (proj : System → List (Int × Int))
    (t : Nat) (hist : List (List (Int × Int))) (per : Option Nat)
    (hinv : AxInv s0 proj t hist per) :
    AxInv s0 proj (t + 1) (axisCheck t (proj (sysAt s0 t)) hist per).1
      (axisCheck t (proj (sysAt s0 t)) hist per).2 := by
  match per with
  | some p =>
    obtain ⟨h1, h2, h3⟩ := hinv
    exact ⟨h1, Nat.le_succ_of_le h2, h3⟩
  | none =>
    obtain ⟨hchar, hdist⟩ := hinv
    by_cases hmem : proj (sysAt s0 t) ∈ hist
    · rw [axisCheck_none_mem t _ hist hmem]
      obtain ⟨k, hk, hkeq⟩ := (hchar _).mp hmem
      exact ⟨by omega, Nat.le_succ t, k, hk, hkeq.symm⟩
    · rw [axisCheck_none_not_mem t _ hist hmem]
      refine ⟨fun l => ?_, fun k1 k2 h12 h2t => ?_⟩
      · constructor
        · intro hl
          rcases List.mem_cons.mp hl with rfl | hl
          · exact ⟨t, Nat.lt_succ_self t, rfl⟩
          · obtain ⟨k, hk, hkeq⟩ := (hchar l).mp hl
            exact ⟨k, Nat.lt_succ_of_lt hk, hkeq⟩
        · rintro ⟨k, hk, rfl⟩
          rcases Nat.lt_succ_iff_lt_or_eq.mp hk with hk' | rfl
          · exact List.mem_cons_of_mem _ ((hchar _).mpr ⟨k, hk', rfl⟩)
          · exact List.mem_cons_self _ _
      · rcases Nat.lt_succ_iff_lt_or_eq.mp h2t with h2t' | rfl
        · exact hdist k1 k2 h12 h2t'
        · intro heq
          exact hmem (heq ▸ (hchar _).mpr ⟨k1, h12, rfl⟩)

/-- `checkPhase` at iteration `t` keeps the system and carries all three
per-axis invariants to `t + 1`. -/
theorem checkPhase_inv (s0 : System) (h0 : s0.step = 0) (t : Nat)
    (st : LoopState) (hinv : LoopInv s0 t st) :
    (checkPhase st).sys = sysAt s0 t
  ∧ AxInv s0 System.stateX (t + 1) (checkPhase st).histX (checkPhase st).perX
  ∧ AxInv s0 System.stateY (t + 1) (checkPhase st).histY (checkPhase st).perY
  ∧ AxInv s0 System.stateZ (t + 1) (checkPhase st).histZ (checkPhase st).perZ := by
  obtain ⟨hsys, hx, hy, hz⟩ := hinv
  have hstep : st.sys.step = t := by rw [hsys]; exact sysAt_step s0 h0 t
  refine ⟨hsys, ?_, ?_, ?_⟩
  · show AxInv s0 System.stateX (t + 1)
      (axisCheck st.sys.step st.sys.stateX st.histX st.perX).1
      (axisCheck st.sys.step st.sys.stateX st.histX st.perX).2
    rw [hstep, hsys]
    exact axisCheck_inv s0 System.stateX t st.histX st.perX hx
  · show AxInv s0 System.stateY (t + 1)
      (axisCheck st.sys.step st.sys.stateY st.histY st.perY).1
      (axisCheck st.sys.step st.sys.stateY st.histY st.perY).2
    rw [hstep, hsys]
    exact axisCheck_inv s0 System.stateY t st.histY st.perY hy
  · show AxInv s0 System.stateZ (t + 1)
      (axisCheck st.sys.step st.sys.stateZ st.histZ st.perZ).1
      (axisCheck st.sys.step st.sys.stateZ st.histZ st.perZ).2
    rw [hstep, hsys]
    exact axisCheck_inv s0 System.stateZ t st.histZ st.perZ hz

theorem loopInv_zero (s0 : System) : LoopInv s0 0 (initLoop s0) := by
  refine ⟨rfl, ?_, ?_, ?_⟩ <;>
    exact ⟨fun l => by simp [initLoop], fun k1 k2 _ h => by omega⟩

theorem loopInv_advance (s0 : System) (h0 : s0.step = 0) (t : Nat)
    (st : LoopState) (hinv : LoopInv s0 t st) :
    LoopInv s0 (t + 1) { checkPhase st with sys := advance (checkPhase st).sys } := by
  obtain ⟨hsys', hx, hy, hz⟩ := checkPhase_inv s0 h0 t st hinv
  refine ⟨?_, hx, hy, hz⟩
  show advance (checkPhase st).sys = sysAt s0 (t + 1)
  rw [hsys', sysAt_succ]

/-- If an axis genuinely recurred by step `t`, then after the check at
step `t` its period slot is filled with a positive value. -/
theorem axInv_found (s0 : System) (proj : System → List (Int × Int))
    (t : Nat) (hist : List (List (Int × Int))) (per : Option Nat)
    (hinv : AxInv s0 proj (t + 1) hist per)
    (t1 t2 : Nat) (h12 : t1 < t2) (ht2 : t2 ≤ t)
    (heq : proj (sysAt s0 t1) = proj (sysAt s0 t2)) :
    ∃ p, per = some p ∧ 1 ≤ p := by
  match per with
  | some p => exact ⟨p, rfl, hinv.1⟩
  | none => exact absurd heq (hinv.2 t1 t2 h12 (by omega))

/-- Whenever the loop returns, every returned period slot is filled with a
positive value witnessed by a genuine recurrence of that axis. -/
theorem part2Loop_some_inv (s0 : System) (h0 : s0.step = 0) :
    ∀ (fuel t : Nat) (st : LoopState)
      (res : Option Nat × Option Nat × Option Nat),
      LoopInv s0 t st → part2Loop fuel st = some res →
      (∃ p, res.1 = some p ∧ 1 ≤ p ∧ ∃ t1, t1 < p
        ∧ System.stateX (sysAt s0 t1) = System.stateX (sysAt s0 p))
    ∧ (∃ p, res.2.1 = some p ∧ 1 ≤ p ∧ ∃ t1, t1 < p
        ∧ System.stateY (sysAt s0 t1) = System.stateY (sysAt s0 p))
    ∧ (∃ p, res.2.2 = some p ∧ 1 ≤ p ∧ ∃ t1, t1 < p
        ∧ System.stateZ (sysAt s0 t1) = System.stateZ (sysAt s0 p)) := by
  intro fuel
  induction fuel with
  | zero => intro t st res _ h; cases h
  | succ fuel ih =>
    intro t st res hinv hres
    obtain ⟨hsys', hx, hy, hz⟩ := checkPhase_inv s0 h0 t st hinv
    rw [part2Loop] at hres
    by_cases hall : allPeriod (checkPhase st)
    · rw [if_pos hall] at hres
      obtain rfl : ((checkPhase st).perX, (checkPhase st).perY,
          (checkPhase st).perZ) = res := Option.some.inj hres
      rw [allPeriod] at hall
      refine ⟨?_, ?_, ?_⟩
      · rcases hpx : (checkPhase st).perX with _ | p
        · rw [hpx] at hall; simp [truthy] at hall
        · rw [hpx] at hx
          obtain ⟨h1, _, t1, ht1, heq⟩ := hx
          exact ⟨p, rfl, h1, t1, ht1, heq⟩
      · rcases hpy : (checkPhase st).perY with _ | p
        · rw [hpy] at hall; simp [truthy] at hall
        · rw [hpy] at hy
          obtain ⟨h1, _, t1, ht1, heq⟩ := hy
          exact ⟨p, rfl, h1, t1, ht1, heq⟩
      · rcases hpz : (checkPhase st).perZ with _ | p
        · rw [hpz] at hall; simp [truthy] at hall
        · rw [hpz] at hz
          obtain ⟨h1, _, t1, ht1, heq⟩ := hz
          exact ⟨p, rfl, h1, t1, ht1, heq⟩
    · rw [if_neg hall] at hres
      exact ih (t + 1) _ res (loopInv_advance s0 h0 t st hinv) hres

/-- If every axis has genuinely recurred by step `t`, the check at step
`t` leaves every period slot filled, so the exit test `all(period)`
passes. -/
theorem checkPhase_allPeriod (s0 : System) (h0 : s0.step = 0) (t : Nat)
    (st : LoopState) (hinv : LoopInv s0 t st)
    (Hx : ∃ t1 t2, t1 < t2 ∧ t2 ≤ t
      ∧ System.stateX (sysAt s0 t1) = System.stateX (sysAt s0 t2))
    (Hy : ∃ t1 t2, t1 < t2 ∧ t2 ≤ t
      ∧ System.stateY (sysAt s0 t1) = System.stateY (sysAt s0 t2))
    (Hz : ∃ t1 t2, t1 < t2 ∧ t2 ≤ t
      ∧ System.stateZ (sysAt s0 t1) = System.stateZ (sysAt s0 t2)) :
    allPeriod (checkPhase st) = true := by
  obtain ⟨hsys', hx, hy, hz⟩ := checkPhase_inv s0 h0 t st hinv
  obtain ⟨t1x, t2x, h12x, ht2x, heqx⟩ := Hx
  obtain ⟨t1y, t2y, h12y, ht2y, heqy⟩ := Hy
  obtain ⟨t1z, t2z, h12z, ht2z, heqz⟩ := Hz
  obtain ⟨px, hpx, hpx1⟩ :=
    axInv_found s0 System.stateX t _ _ hx t1x t2x h12x ht2x heqx
  obtain ⟨py, hpy, hpy1⟩ :=
    axInv_found s0 System.stateY t _ _ hy t1y t2y h12y ht2y heqy
  obtain ⟨pz, hpz, hpz1⟩ :=
    axInv_found s0 System.stateZ t _ _ hz t1z t2z h12z ht2z heqz
  have hx0 : px ≠ 0 := by omega
  have hy0 : py ≠ 0 := by omega
  have hz0 : pz ≠ 0 := by omega
  rw [allPeriod, hpx, hpy, hpz]
  simp [truthy, hx0, hy0, hz0]

/-- The main induction for termination: with every axis recurring by step
`T`, fuel `T + 1 - t` (stated as `T ≤ t + f` and fuel `f + 1`) suffices
from any invariant state at iteration `t`. -/
theorem part2Loop_go (s0 : System) (h0 : s0.step = 0) (T : Nat)
    (Hx : ∃ t1 t2, t1 < t2 ∧ t2 ≤ T
      ∧ System.stateX (sysAt s0 t1) = System.stateX (sysAt s0 t2))
    (Hy : ∃ t1 t2, t1 < t2 ∧ t2 ≤ T
      ∧ System.stateY (sysAt s0 t1) = System.stateY (sysAt s0 t2))
    (Hz : ∃ t1 t2, t1 < t2 ∧ t2 ≤ T
      ∧ System.stateZ (sysAt s0 t1) = System.stateZ (sysAt s0 t2)) :
    ∀ (f t : Nat) (st : LoopState), LoopInv s0 t st → T ≤ t + f →
      ∃ res, part2Loop (f + 1) st = some res := by
  intro f
  induction f with
  | zero =>
    intro t st hinv hT
    have hall : allPeriod (checkPhase st) = true := by
      refine checkPhase_allPeriod s0 h0 t st hinv ?_ ?_ ?_
      · obtain ⟨t1, t2, h12, hb, he⟩ := Hx
        exact ⟨t1, t2, h12, by omega, he⟩
      · obtain ⟨t1, t2, h12, hb, he⟩ := Hy
        exact ⟨t1, t2, h12, by omega, he⟩
      · obtain ⟨t1, t2, h12, hb, he⟩ := Hz
        exact ⟨t1, t2, h12, by omega, he⟩
    refine ⟨((checkPhase st).perX, (checkPhase st).perY, (checkPhase st).perZ), ?_⟩
    simp only [part2Loop]
    rw [if_pos hall]
  | succ f ih =>
    intro t st hinv hT
    by_cases hall : allPeriod (checkPhase st) = true
    · refine ⟨((checkPhase st).perX, (checkPhase st).perY, (checkPhase st).perZ), ?_⟩
      simp only [part2Loop]
      rw [if_pos hall]
    · have htT : t < T := by
        by_contra hge
        push_neg at hge
        refine hall (checkPhase_allPeriod s0 h0 t st hinv ?_ ?_ ?_)
        · obtain ⟨t1, t2, h12, hb, he⟩ := Hx
          exact ⟨t1, t2, h12, by omega, he⟩
        · obtain ⟨t1, t2, h12, hb, he⟩ := Hy
          exact ⟨t1, t2, h12, by omega, he⟩
        · obtain ⟨t1, t2, h12, hb, he⟩ := Hz
          exact ⟨t1, t2, h12, by omega, he⟩
      obtain ⟨res, hres⟩ := ih (t + 1)
        { checkPhase st with sys := advance (checkPhase st).sys }
        (loopInv_advance s0 h0 t st hinv) (by omega)
      refine ⟨res, ?_⟩
      simp only [part2Loop]
      rw [if_neg hall]
      exact hres

/-- C9 amended.  Whenever each axis's projected state sequence eventually
repeats a previously-seen value, the Part 2 loop terminates: some finite
fuel makes it return all three periods (the unbounded `while True`
reaches its `break`).  The original claim — termination for EVERY
configuration of integer positions and velocities — is refuted by a
single moon with nonzero velocity, whose axis state never repeats. -/
theorem part2Loop_terminates (s0 : System) (h0 : s0.step = 0)
    (Hx : ∃ t1 t2, t1 < t2
      ∧ System.stateX (sysAt s0 t1) = System.stateX (sysAt s0 t2))
    (Hy : ∃ t1 t2, t1 < t2
      ∧ System.stateY (sysAt s0 t1) = System.stateY (sysAt s0 t2))
    (Hz : ∃ t1 t2, t1 < t2
      ∧ System.stateZ (sysAt s0 t1) = System.stateZ (sysAt s0 t2)) :
    ∃ fuel res, part2Loop fuel (initLoop s0) = some res := by
  obtain ⟨t1x, t2x, h12x, heqx⟩ := Hx
  obtain ⟨t1y, t2y, h12y, heqy⟩ := Hy
  obtain ⟨t1z, t2z, h12z, heqz⟩ := Hz
  obtain ⟨res, hres⟩ := part2Loop_go s0 h0 (max t2x (max t2y t2z))
    ⟨t1x, t2x, h12x, le_max_left _ _, heqx⟩
    ⟨t1y, t2y, h12y, le_trans (le_max_left _ _) (le_max_right _ _), heqy⟩
    ⟨t1z, t2z, h12z, le_trans (le_max_right _ _) (le_max_right _ _), heqz⟩
    (max t2x (max t2y t2z)) 0 (initLoop s0) (loopInv_zero s0) (by omega)
  exact ⟨max t2x (max t2y t2z) + 1, res, hres⟩

/-- C9 witness: a single stationary moon recurs immediately on every
axis, so the loop terminates on it. -/
theorem part2Loop_terminates_witness :
    ∃ fuel res, part2Loop fuel
      (initLoop { moons := [⟨⟨0, 0, 0⟩, ⟨0, 0, 0⟩⟩], step := 0 }) = some res :=
  part2Loop_terminates { moons := [⟨⟨0, 0, 0⟩, ⟨0, 0, 0⟩⟩], step := 0 } rfl
    ⟨0, 1, by decide, by decide⟩ ⟨0, 1, by decide, by decide⟩
    ⟨0, 1, by decide, by decide⟩

/-- C9 counterexample.  A single moon at the origin with velocity
(1, 0, 0) drifts forever: its x-axis state `(t, 1)` is different at every
step, the x period is never recorded, and the loop never breaks — for
every fuel the modelled loop returns nothing, refuting termination for
arbitrary integer velocities. -/
theorem part2Loop_diverges_drifting_moon :
    ¬ ∃ fuel res, part2Loop fuel
      (initLoop { moons := [⟨⟨0, 0, 0⟩, ⟨1, 0, 0⟩⟩], step := 0 }) = some res := by
  rintro ⟨fuel, res, hres⟩
  have ht : ∀ t : Nat, sysAt { moons := [⟨⟨0, 0, 0⟩, ⟨1, 0, 0⟩⟩], step := 0 } t
      = { moons := [⟨⟨(t : Int), 0, 0⟩, ⟨1, 0, 0⟩⟩], step := t } := by
    intro t
    induction t with
    | zero => rfl
    | succ t ih =>
      rw [sysAt_succ, ih]
      have hcomb : combPairs 1 = [] := by decide
      simp only [advance, System.apply_gravity, System.tick, List.length_cons,
        List.length_nil, hcomb, List.foldl_nil, List.map_cons, List.map_nil,
        Moon.move, Vector3.add]
      norm_num
  obtain ⟨⟨p, hp, hp1, t1, ht1, heq⟩, -, -⟩ :=
    part2Loop_some_inv { moons := [⟨⟨0, 0, 0⟩, ⟨1, 0, 0⟩⟩], step := 0 } rfl
      fuel 0 _ res (loopInv_zero _) hres
  rw [ht t1, ht p] at heq
  simp [System.stateX] at heq
  omega

/-- C10.  Every period the loop records is at least 1 (the step-0 check
inserts into an empty seen-set, so recording happens at step 1 or later);
consequently Python's truthiness test on a period slot — which treats 0
like an unset `None` — coincides with "the period has been found", and
the exit test `all(period)` is exactly the conjunction of the three
truthiness checks. -/
theorem part2_periods_positive :
    (∀ (s0 : System) (fuel : Nat) (res : Option Nat × Option Nat × Option Nat),
      s0.step = 0 → part2Loop fuel (initLoop s0) = some res →
      ∃ px py pz, res = (some px, some py, some pz)
        ∧ 1 ≤ px ∧ 1 ≤ py ∧ 1 ≤ pz)
  ∧ (∀ per : Option Nat, (∀ p, per = some p → 1 ≤ p) → truthy per = per.isSome)
  ∧ (∀ st : LoopState, allPeriod st
      = (truthy st.perX && truthy st.perY && truthy st.perZ)) := by
  refine ⟨?_, ?_, fun st => rfl⟩
  · intro s0 fuel res h0 hres
    obtain ⟨⟨px, hpx, hpx1, -⟩, ⟨py, hpy, hpy1, -⟩, ⟨pz, hpz, hpz1, -⟩⟩ :=
      part2Loop_some_inv s0 h0 fuel 0 (initLoop s0) res (loopInv_zero s0) hres
    obtain ⟨r1, r2, r3⟩ := res
    refine ⟨px, py, pz, ?_, hpx1, hpy1, hpz1⟩
    simp only [] at hpx hpy hpz
    rw [hpx, hpy, hpz]
  · intro per h
    rcases per with _ | p
    · rfl
    · have h1 := h p rfl
      simp [truthy]
      omega

end Solve12
